import Mathlib

/-!
Verification of the EnergyDataCNCC core: sheet loading and cleaning
(energy_models.py, class EnergySheet), the change-detection cache
(EnergySheet.compare_with_cache plus the caller policy), and the
cross-sheet aggregation engine (process_energy_data.py,
process_excel_files).  Cell values of a sheet are modelled as pandas
sees them: a missing value (NaN), a number, or a text; monetary and
consumption amounts are modelled as exact rationals.
-/

namespace EnergyCNCC

/-- Value of one spreadsheet cell as pandas reads it: NaN for a missing
or merged-away cell, an integer, or a text. -/
inductive PyVal where
  | vnan : PyVal
  | vint : Int → PyVal
  | vstr : String → PyVal
deriving DecidableEq

/-- Python str() applied to a cell value; note str(NaN) is the text nan,
which is what pandas astype(str) writes into a missing cell. -/
def pyStr : PyVal → String
  | .vnan => "nan"
  | .vint n => toString n
  | .vstr s => s

/-- Character-list form of str.strip: drop whitespace from both ends. -/
def stripChars (l : List Char) : List Char :=
  ((l.dropWhile Char.isWhitespace).reverse.dropWhile Char.isWhitespace).reverse

/-- Model of pandas Series.str.strip on one value. -/
def strip (s : String) : String := String.mk (stripChars s.data)

/-- energy_models.py line 23: the recognized energy categories. -/
def TARGET_TYPES : List String := ["电", "采暖热表", "生活热水表", "自来水", "中水", "燃气"]

/-- energy_models.py line 24: the three required column names. -/
def REQUIRED_COLS : List String := ["能源类型", "实际消耗", "费用(元)"]

/-- One data row of a sheet: the category cell 能源类型, the meter cell
表号, and the numeric cells 实际消耗 and 费用(元). -/
structure Row where
  cat : PyVal
  meter : PyVal
  usage : Rat
  cost : Rat
deriving DecidableEq

/-- A sheet table: the column names present in the sheet, and the rows. -/
structure Table where
  columns : List String
  rows : List Row
deriving DecidableEq

/-- pandas ffill on the category column, threaded through the rows: a NaN
category receives the nearest preceding non-NaN category value; when no
non-NaN value precedes, the carried value is still NaN and the cell keeps
it. -/
def ffillRows (last : PyVal) : List Row → List Row
  | [] => []
  | r :: rs =>
    match r.cat with
    | .vnan => { r with cat := last } :: ffillRows last rs
    | v => r :: ffillRows v rs

/-- The per-row cleaning after the fill (energy_models.py lines 78-82):
astype(str).str.strip() on 能源类型, and astype(str) on 表号 when that
column exists. -/
def cleanRow (hasMeter : Bool) (r : Row) : Row :=
  { r with
      cat := .vstr (strip (pyStr r.cat)),
      meter := if hasMeter then .vstr (pyStr r.meter) else r.meter }

/-- EnergySheet loading and cleaning (energy_models.py lines 63-84): none
when a required column is missing (the sheet is skipped and keeps no
processed data), otherwise the cleaned table. -/
def load_and_process (t : Table) : Option Table :=
  if REQUIRED_COLS.all (fun c => t.columns.contains c) then
    some { columns := t.columns,
           rows := (ffillRows .vnan t.rows).map
             (cleanRow (t.columns.contains "表号")) }
  else
    none

/-- One row of a sheet summary: category, summed consumption and cost,
tagged with the 日期区间 (sheet name) and 来源文件 (file name). -/
structure SummaryRow where
  cat : String
  usage : Rat
  cost : Rat
  period : String
  file : String
deriving DecidableEq

/-- Codepoint-lexicographic comparison of character lists: the order
Python applies when pandas sorts string group keys. -/
def listLe : List Char → List Char → Bool
  | [], _ => true
  | _ :: _, [] => false
  | a :: as, b :: bs =>
    if a < b then true
    else if b < a then false
    else listLe as bs

/-- Codepoint-lexicographic order on strings. -/
def strLe (a b : String) : Prop := listLe a.data b.data = true

instance : DecidableRel strLe :=
  fun a b => inferInstanceAs (Decidable (listLe a.data b.data = true))

/-- Sorted list of the distinct values of a column, the way pandas
groupby and pivot_table present group keys. -/
def sortedDedup (l : List String) : List String :=
  l.dedup.insertionSort strLe

/-- EnergySheet summary (energy_models.py lines 105-118): keep only the
rows whose category is recognized, group by category (pandas groupby
sorts the keys), sum consumption and cost per group, and attach the
sheet and file identity. -/
def generate_summary (t : Table) (sheetName fileName : String) : List SummaryRow :=
  let fr := t.rows.filter (fun r => TARGET_TYPES.contains (pyStr r.cat))
  (sortedDedup (fr.map (fun r => pyStr r.cat))).map (fun c =>
    { cat := c,
      usage := ((fr.filter (fun r => pyStr r.cat == c)).map Row.usage).sum,
      cost := ((fr.filter (fun r => pyStr r.cat == c)).map Row.cost).sum,
      period := sheetName,
      file := fileName })

/-- Summary of one processed sheet as process_excel_files sees it: none
exactly when loading failed, since then summary_df was never built. -/
def sheetSummary (t : Table) (sheetName fileName : String) :
    Option (List SummaryRow) :=
  (load_and_process t).map (fun u => generate_summary u sheetName fileName)

/-- The sheet loop of process_excel_files (lines 77-111): append the
summary rows of every sheet whose summary exists, in encounter order. -/
def collectSummaries : List (Table × String × String) → List SummaryRow
  | [] => []
  | (t, s, f) :: rest =>
    (match sheetSummary t s f with
     | some l => l
     | none => []) ++ collectSummaries rest

/-- The four-way classification returned by compare_with_cache
(energy_models.py lines 208-247). -/
inductive CmpResult where
  | NEW : CmpResult
  | MATCH : CmpResult
  | MISMATCH : CmpResult
  | ERROR : CmpResult
deriving DecidableEq

/-- State of the cache file at the derived key: no file, an unreadable or
unparsable file, or a stored table together with the physical numeric
widths the serialization chose for its columns (the widths are exactly
what the type-tolerant comparison ignores). -/
inductive CacheState where
  | absent : CacheState
  | corrupt : CacheState
  | stored : Table → List Nat → CacheState
deriving DecidableEq

/-- EnergySheet.compare_with_cache: ERROR when the sheet has no processed
table, NEW when no cache file exists at the derived key, MATCH when the
cached table equals the processed one up to numeric width, MISMATCH on a
content difference, ERROR when the cached file cannot be read or
parsed. -/
def compare_with_cache (processed : Option Table) (st : CacheState) : CmpResult :=
  match processed with
  | none => .ERROR
  | some t =>
    match st with
    | .absent => .NEW
    | .corrupt => .ERROR
    | .stored u _ => if t = u then .MATCH else .MISMATCH

/-- The numeric widths recorded on disk when save_data writes a table. -/
def savedWidths (t : Table) : List Nat := List.replicate t.rows.length 64

/-- The caller policy of process_excel_files (lines 95-106) around the
cache comparison: save_data runs only when the comparison returned NEW;
on MATCH, MISMATCH and ERROR the cache file is left untouched. -/
def cacheStep (processed : Option Table) (st : CacheState) :
    CmpResult × CacheState :=
  match processed with
  | some t =>
    if compare_with_cache (some t) st = CmpResult.NEW then
      (CmpResult.NEW, CacheState.stored t (savedWidths t))
    else
      (compare_with_cache (some t) st, st)
  | none => (compare_with_cache none st, st)

/-- process_energy_data.py line 140: the canonical category order used
when reordering the pivot columns. -/
def target_order : List String := ["电", "采暖热表", "生活热水表", "自来水", "中水", "燃气"]

/-- The column-name suffix of every per-category cost column. -/
def COST_SUFFIX : String := "_费用(元)"

/-- Flattened wide-table column name of the cost of one category
(process_energy_data.py line 133). -/
def costColName (c : String) : String := c ++ COST_SUFFIX

/-- str.endswith used on line 154 to select the cost columns that feed
the grand total. -/
def endsWithCostSuffix (s : String) : Bool := decide (COST_SUFFIX.data <:+ s.data)

/-- Period axis of the pivot: sorted distinct 日期区间 values. -/
def pivotPeriods (L : List SummaryRow) : List String :=
  sortedDedup (L.map SummaryRow.period)

/-- Category axis of the pivot: sorted distinct 能源类型 values. -/
def pivotCats (L : List SummaryRow) : List String :=
  sortedDedup (L.map SummaryRow.cat)

/-- One pivot cell: the summed cost over the summary rows of one period
and one category; 0 when no row contributes (fill_value=0). -/
def cellSum (L : List SummaryRow) (p c : String) : Rat :=
  ((L.filter (fun r => r.period == p && r.cat == c)).map SummaryRow.cost).sum

/-- A wide table: ordered column names with the period-label column
first, and one row per period holding named cost cells. -/
structure WideTable where
  columns : List String
  rows : List (String × List (String × Rat))
deriving DecidableEq

/-- pivot_table + swaplevel + sort_index + flatten + reset_index
(process_energy_data.py lines 120-136): one row per sorted distinct
period, one cost column per sorted distinct category, zero-filled
cells. -/
def pivotWide (L : List SummaryRow) : WideTable :=
  { columns := "日期区间" :: (pivotCats L).map costColName,
    rows := (pivotPeriods L).map (fun p =>
      (p, (pivotCats L).map (fun c => (costColName c, cellSum L p c)))) }

/-- Cell selection by column name, as pandas frame indexing does; the
tables built here never hit the absent-column default. -/
def lookupCell (cells : List (String × Rat)) (col : String) : Rat :=
  match cells.find? (fun nv => nv.1 == col) with
  | some nv => nv.2
  | none => 0

/-- The ordered_columns list of process_energy_data.py lines 139-149,
computed from the pivot column list: the period column first, then the
cost column of each canonical category that is present, then every
remaining column in encountered order. -/
def orderedColumnsOf (cols : List String) : List String :=
  let ordered := "日期区间" ::
    (target_order.map costColName).filter (fun c => cols.contains c)
  ordered ++ cols.filter (fun c => !(ordered.contains c))

/-- Column reordering of process_energy_data.py line 151: select the
ordered columns by name.  The period label is kept separately in each
row, so the cell lists follow the reordered columns with the period
column dropped. -/
def reorderColumns (wt : WideTable) : WideTable :=
  { columns := orderedColumnsOf wt.columns,
    rows := wt.rows.map (fun pr =>
      (pr.1, ((orderedColumnsOf wt.columns).drop 1).map
        (fun col => (col, lookupCell pr.2 col)))) }

/-- The final aggregate table: ordered columns, and rows of the form
(period label, named per-category cost cells, grand total). -/
structure AggTable where
  columns : List String
  rows : List (String × List (String × Rat) × Rat)
deriving DecidableEq

/-- The grand-total step of process_energy_data.py lines 153-155: the
cost columns are those whose name ends with the cost suffix, and the
total of a row is the sum of its values in those columns; the total
column 总费用(元) is appended last. -/
def addTotal (wt : WideTable) : AggTable :=
  let cost_cols := wt.columns.filter endsWithCostSuffix
  { columns := wt.columns ++ ["总费用(元)"],
    rows := wt.rows.map (fun pr =>
      (pr.1, pr.2, (cost_cols.map (fun col => lookupCell pr.2 col)).sum)) }

/-- The cross-sheet aggregation engine applied to the concatenated
summary rows: pivot, reorder the columns, then add the grand total. -/
def aggTable (L : List SummaryRow) : AggTable :=
  addTotal (reorderColumns (pivotWide L))

/-- Canonical categories among a pivot category axis, in canonical
order: the reordering step places exactly these first. -/
def canonCatsOf (pc : List String) : List String :=
  target_order.filter (fun c => pc.contains c)

/-- Non-canonical categories of a pivot category axis, in pivot
(encountered) order: the defensive fallback appends exactly these. -/
def remCatsOf (pc : List String) : List String :=
  pc.filter (fun c => !(target_order.contains c))

/-- The category order underlying the reordered cost columns. -/
def aggCatsOf (pc : List String) : List String := canonCatsOf pc ++ remCatsOf pc

/-! Helper lemmas about dropWhile and strip. -/

theorem head_dropWhile_not {α : Type} (p : α → Bool) :
    ∀ (l : List α) (a : α), (l.dropWhile p).head? = some a → p a = false := by
  intro l
  induction l with
  | nil => intro a h; simp [List.dropWhile] at h
  | cons x xs ih =>
    intro a h
    rw [List.dropWhile_cons] at h
    by_cases hx : p x
    · rw [if_pos hx] at h
      exact ih a h
    · rw [if_neg hx] at h
      simp only [List.head?_cons, Option.some.injEq] at h
      subst h
      simpa using hx

theorem dropWhile_self {α : Type} (p : α → Bool) (l : List α)
    (h : ∀ a, l.head? = some a → p a = false) : l.dropWhile p = l := by
  cases l with
  | nil => rfl
  | cons x xs =>
    rw [List.dropWhile_cons, if_neg]
    simp [h x rfl]

theorem dropWhile_dropWhile {α : Type} (p : α → Bool) (m : List α) :
    (m.dropWhile p).dropWhile p = m.dropWhile p :=
  dropWhile_self p _ (fun a h => head_dropWhile_not p m a h)

theorem getLast?_dropWhile {α : Type} (p : α → Bool) :
    ∀ l : List α, l.dropWhile p ≠ [] → (l.dropWhile p).getLast? = l.getLast? := by
  intro l
  induction l with
  | nil => intro h; simp [List.dropWhile] at h
  | cons x xs ih =>
    intro h
    rw [List.dropWhile_cons] at h ⊢
    by_cases hx : p x
    · rw [if_pos hx] at h ⊢
      have hxs : xs ≠ [] := by
        intro he
        subst he
        simp [List.dropWhile] at h
      rw [ih h]
      cases xs with
      | nil => exact absurd rfl hxs
      | cons y ys => rw [List.getLast?_cons_cons]
    · rw [if_neg hx]

theorem stripChars_dropWhile (l : List Char) :
    (stripChars l).dropWhile Char.isWhitespace = stripChars l := by
  apply dropWhile_self
  intro a ha
  rw [show stripChars l
      = ((l.dropWhile Char.isWhitespace).reverse.dropWhile Char.isWhitespace).reverse
    from rfl, List.head?_reverse] at ha
  have hZne :
      (l.dropWhile Char.isWhitespace).reverse.dropWhile Char.isWhitespace ≠ [] := by
    intro he
    rw [he] at ha
    simp at ha
  rw [getLast?_dropWhile _ _ hZne, List.getLast?_reverse] at ha
  exact head_dropWhile_not _ _ a ha

theorem stripChars_idem (l : List Char) : stripChars (stripChars l) = stripChars l := by
  show (((stripChars l).dropWhile Char.isWhitespace).reverse.dropWhile
      Char.isWhitespace).reverse = stripChars l
  rw [stripChars_dropWhile]
  show ((((l.dropWhile Char.isWhitespace).reverse.dropWhile
      Char.isWhitespace).reverse).reverse.dropWhile Char.isWhitespace).reverse
    = stripChars l
  rw [List.reverse_reverse, dropWhile_dropWhile]
  exact rfl

theorem strip_idem (s : String) : strip (strip s) = strip s :=
  congrArg String.mk (stripChars_idem s.data)

/-! Helper lemmas about the fill and the per-row cleaning. -/

theorem ffillRows_cons (last : PyVal) (r : Row) (rs : List Row) :
    ffillRows last (r :: rs) =
      match r.cat with
      | .vnan => { r with cat := last } :: ffillRows last rs
      | v => r :: ffillRows v rs := rfl

theorem ffillRows_cons_nan (last : PyVal) (r : Row) (rs : List Row)
    (h : r.cat = .vnan) :
    ffillRows last (r :: rs) = { r with cat := last } :: ffillRows last rs := by
  rw [ffillRows_cons, h]

theorem ffillRows_cons_str (last : PyVal) (r : Row) (rs : List Row) (s : String)
    (h : r.cat = .vstr s) :
    ffillRows last (r :: rs) = r :: ffillRows (.vstr s) rs := by
  rw [ffillRows_cons, h]

theorem ffillRows_cons_int (last : PyVal) (r : Row) (rs : List Row) (n : Int)
    (h : r.cat = .vint n) :
    ffillRows last (r :: rs) = r :: ffillRows (.vint n) rs := by
  rw [ffillRows_cons, h]

theorem ffillRows_no_nan : ∀ (last : PyVal) (rows : List Row),
    (∀ r ∈ rows, r.cat ≠ PyVal.vnan) → ffillRows last rows = rows := by
  intro last rows
  induction rows generalizing last with
  | nil => intro _; rfl
  | cons r rs ih =>
    intro h
    cases hc : r.cat with
    | vnan => exact absurd hc (h r (List.mem_cons_self r rs))
    | vint n =>
      rw [ffillRows_cons_int _ _ _ _ hc]
      rw [ih (.vint n) (fun x hx => h x (List.mem_cons_of_mem r hx))]
    | vstr s =>
      rw [ffillRows_cons_str _ _ _ _ hc]
      rw [ih (.vstr s) (fun x hx => h x (List.mem_cons_of_mem r hx))]

theorem cleanRow_cat (m : Bool) (r : Row) :
    (cleanRow m r).cat = .vstr (strip (pyStr r.cat)) := rfl

theorem cleanRow_idem (m : Bool) (r : Row) :
    cleanRow m (cleanRow m r) = cleanRow m r := by
  cases m <;> simp [cleanRow, pyStr, strip_idem]

theorem ffillRows_take : ∀ (rows : List Row) (k : Nat) (last : PyVal),
    (ffillRows last rows).take k = ffillRows last (rows.take k) := by
  intro rows
  induction rows with
  | nil => intro k last; cases k <;> rfl
  | cons r rs ih =>
    intro k last
    cases k with
    | zero => rfl
    | succ k2 =>
      cases hc : r.cat with
      | vnan =>
        rw [ffillRows_cons_nan _ _ _ hc, List.take_succ_cons, ih,
          List.take_succ_cons, ffillRows_cons_nan _ _ _ hc]
      | vint n =>
        rw [ffillRows_cons_int _ _ _ _ hc, List.take_succ_cons, ih,
          List.take_succ_cons, ffillRows_cons_int _ _ _ _ hc]
      | vstr s =>
        rw [ffillRows_cons_str _ _ _ _ hc, List.take_succ_cons, ih,
          List.take_succ_cons, ffillRows_cons_str _ _ _ _ hc]

theorem ffillRows_all_nan : ∀ rows : List Row,
    (∀ r ∈ rows, r.cat = PyVal.vnan) → ffillRows PyVal.vnan rows = rows := by
  intro rows
  induction rows with
  | nil => intro _; rfl
  | cons r rs ih =>
    intro h
    rw [ffillRows_cons_nan _ _ _ (h r (List.mem_cons_self r rs))]
    rw [ih (fun x hx => h x (List.mem_cons_of_mem r hx))]
    have hr := h r (List.mem_cons_self r rs)
    cases r
    simp only [Row.mk.injEq] at hr ⊢
    simp [hr]

/-- C2: for a raw table whose category column is
[A, empty, empty, B, empty] with A and B non-empty (already-trimmed)
values, normalization yields the category column [A, A, A, B, B]: every
empty cell receives the nearest preceding non-empty category value. -/
theorem forward_fill_merged_cells (cols : List String)
    (hcols : REQUIRED_COLS.all (fun c => cols.contains c) = true)
    (r1 r2 r3 r4 r5 : Row) (a b : String)
    (ha : strip a = a) (hb : strip b = b)
    (h1 : r1.cat = .vstr a) (h2 : r2.cat = .vnan) (h3 : r3.cat = .vnan)
    (h4 : r4.cat = .vstr b) (h5 : r5.cat = .vnan) :
    ∃ u, load_and_process { columns := cols, rows := [r1, r2, r3, r4, r5] } = some u
      ∧ u.rows.map Row.cat =
        [.vstr a, .vstr a, .vstr a, .vstr b, .vstr b] := by
  have hrows : ∀ m : Bool,
      ((ffillRows PyVal.vnan [r1, r2, r3, r4, r5]).map (cleanRow m)).map Row.cat
        = [.vstr a, .vstr a, .vstr a, .vstr b, .vstr b] := by
    intro m
    rw [ffillRows_cons_str _ _ _ _ h1, ffillRows_cons_nan _ _ _ h2,
      ffillRows_cons_nan _ _ _ h3, ffillRows_cons_str _ _ _ _ h4,
      ffillRows_cons_nan _ _ _ h5]
    simp [cleanRow_cat, ffillRows, h1, h4, pyStr, ha, hb]
  have hload : load_and_process (Table.mk cols [r1, r2, r3, r4, r5])
      = some (Table.mk cols ((ffillRows PyVal.vnan [r1, r2, r3, r4, r5]).map
        (cleanRow (cols.contains "表号")))) := by
    unfold load_and_process
    rw [if_pos hcols]
  exact ⟨_, hload, hrows (cols.contains "表号")⟩

/-- C2 witness at a concrete five-row sheet. -/
theorem forward_fill_merged_cells_witness :
    ∃ u, load_and_process
        { columns := REQUIRED_COLS,
          rows := [{ cat := .vstr "电", meter := .vnan, usage := 1, cost := 2 },
                   { cat := .vnan, meter := .vnan, usage := 3, cost := 4 },
                   { cat := .vnan, meter := .vnan, usage := 5, cost := 6 },
                   { cat := .vstr "自来水", meter := .vnan, usage := 7, cost := 8 },
                   { cat := .vnan, meter := .vnan, usage := 9, cost := 10 }] }
      = some u
      ∧ u.rows.map Row.cat =
        [.vstr "电", .vstr "电", .vstr "电", .vstr "自来水", .vstr "自来水"] :=
  forward_fill_merged_cells REQUIRED_COLS (by decide) _ _ _ _ _ "电" "自来水"
    (by decide) (by decide) rfl rfl rfl rfl rfl

/-- C3: normalization is idempotent: when loading and cleaning produced
the table u, running the cleaning pass on u again returns u itself. -/
theorem normalization_idempotent (t u : Table)
    (h : load_and_process t = some u) : load_and_process u = some u := by
  unfold load_and_process at h
  by_cases hc : REQUIRED_COLS.all (fun c => t.columns.contains c) = true
  case neg => rw [if_neg hc] at h; cases h
  rw [if_pos hc] at h
  injection h with h2
  subst h2
  unfold load_and_process
  rw [if_pos hc]
  have key : ∀ (m : Bool) (l : List Row),
      (ffillRows PyVal.vnan (l.map (cleanRow m))).map (cleanRow m)
        = l.map (cleanRow m) := by
    intro m l
    have hnn : ∀ r ∈ l.map (cleanRow m), r.cat ≠ PyVal.vnan := by
      intro r hrm
      obtain ⟨x, _, hx⟩ := List.mem_map.mp hrm
      rw [← hx, cleanRow_cat]
      intro hco
      cases hco
    rw [ffillRows_no_nan _ _ hnn, List.map_map]
    exact List.map_congr_left (fun r _ => cleanRow_idem m r)
  exact congrArg some (congrArg (Table.mk t.columns)
    (key (t.columns.contains "表号") (ffillRows PyVal.vnan t.rows)))

/-- C3 witness at a concrete sheet with a merged cell and padded label. -/
theorem normalization_idempotent_witness :
    load_and_process
        { columns := REQUIRED_COLS,
          rows := [{ cat := .vstr "电", meter := .vnan, usage := 1, cost := 2 },
                   { cat := .vstr "电", meter := .vnan, usage := 3, cost := 4 }] }
      = some
        { columns := REQUIRED_COLS,
          rows := [{ cat := .vstr "电", meter := .vnan, usage := 1, cost := 2 },
                   { cat := .vstr "电", meter := .vnan, usage := 3, cost := 4 }] } :=
  normalization_idempotent
    { columns := REQUIRED_COLS,
      rows := [{ cat := .vstr " 电 ", meter := .vnan, usage := 1, cost := 2 },
               { cat := .vnan, meter := .vnan, usage := 3, cost := 4 }] }
    _ (by decide)

/-- C9 counterexample: on a raw table whose category column is
[empty, 电], normalization does not leave the leading cell empty: the
text coercion step turns the unfilled NaN into the literal text nan,
which is neither a missing cell nor an empty text. -/
theorem leading_empty_run_cex :
    ∃ u, load_and_process
        { columns := REQUIRED_COLS,
          rows := [{ cat := .vnan, meter := .vnan, usage := 1, cost := 2 },
                   { cat := .vstr "电", meter := .vnan, usage := 3, cost := 4 }] }
      = some u
      ∧ u.rows.map Row.cat = [.vstr "nan", .vstr "电"]
      ∧ PyVal.vstr "nan" ≠ PyVal.vnan ∧ "nan" ≠ "" := by
  refine ⟨_, rfl, by decide, by decide, by decide⟩

/-- C9 amended: the forward-fill itself assigns no value to a leading
run of rows with no non-empty category above them; the subsequent text
coercion then renders every such cell as the literal text nan (rather
than leaving it empty, and never as any later category value). -/
theorem leading_empty_run_nan_placeholder (k : Nat) (cols : List String)
    (rows : List Row)
    (hcols : REQUIRED_COLS.all (fun c => cols.contains c) = true)
    (hk : ∀ r ∈ rows.take k, r.cat = PyVal.vnan) :
    (ffillRows PyVal.vnan rows).take k = rows.take k
    ∧ ∃ u, load_and_process { columns := cols, rows := rows } = some u
        ∧ ∀ r ∈ u.rows.take k, r.cat = PyVal.vstr "nan" := by
  have htake : (ffillRows PyVal.vnan rows).take k = rows.take k := by
    rw [ffillRows_take, ffillRows_all_nan _ hk]
  have hload : load_and_process (Table.mk cols rows)
      = some (Table.mk cols ((ffillRows PyVal.vnan rows).map
        (cleanRow (cols.contains "表号")))) := by
    unfold load_and_process
    rw [if_pos hcols]
  refine ⟨htake, _, hload, ?_⟩
  · intro r hr
    have hr2 : r ∈ ((ffillRows PyVal.vnan rows).map
        (cleanRow (cols.contains "表号"))).take k := hr
    rw [← List.map_take, htake] at hr2
    obtain ⟨x, hx, hxr⟩ := List.mem_map.mp hr2
    rw [← hxr, cleanRow_cat, hk x hx]
    rfl

/-- C9 amended witness: two leading unlabeled rows become nan cells. -/
theorem leading_empty_run_nan_placeholder_witness :
    (ffillRows PyVal.vnan
        [{ cat := .vnan, meter := .vnan, usage := 1, cost := 2 },
         { cat := .vnan, meter := .vnan, usage := 3, cost := 4 },
         { cat := .vstr "电", meter := .vnan, usage := 5, cost := 6 }]).take 2
      = ([{ cat := .vnan, meter := .vnan, usage := 1, cost := 2 },
          { cat := .vnan, meter := .vnan, usage := 3, cost := 4 },
          { cat := .vstr "电", meter := .vnan, usage := 5, cost := 6 }] : List Row).take 2
    ∧ ∃ u, load_and_process
        { columns := REQUIRED_COLS,
          rows := [{ cat := .vnan, meter := .vnan, usage := 1, cost := 2 },
                   { cat := .vnan, meter := .vnan, usage := 3, cost := 4 },
                   { cat := .vstr "电", meter := .vnan, usage := 5, cost := 6 }] }
      = some u
        ∧ ∀ r ∈ u.rows.take 2, r.cat = PyVal.vstr "nan" :=
  leading_empty_run_nan_placeholder 2 REQUIRED_COLS _ (by decide) (by decide)

/-- C1: cache classification and the caller write policy: NEW exactly
when no cache file exists (and only then does the caller write), MATCH
when the cached table equals the table regardless of the stored numeric
widths, MISMATCH on a content difference, ERROR on an unreadable or
unparsable cache file, and in the MISMATCH and ERROR cases the cache
state is left unchanged. -/
theorem cache_classification (t u : Table) (d : List Nat) :
    compare_with_cache (some t) CacheState.absent = CmpResult.NEW
    ∧ cacheStep (some t) CacheState.absent
        = (CmpResult.NEW, CacheState.stored t (savedWidths t))
    ∧ (t = u → compare_with_cache (some t) (CacheState.stored u d) = CmpResult.MATCH
        ∧ cacheStep (some t) (CacheState.stored u d)
            = (CmpResult.MATCH, CacheState.stored u d))
    ∧ (t ≠ u →
        compare_with_cache (some t) (CacheState.stored u d) = CmpResult.MISMATCH
        ∧ cacheStep (some t) (CacheState.stored u d)
            = (CmpResult.MISMATCH, CacheState.stored u d))
    ∧ compare_with_cache (some t) CacheState.corrupt = CmpResult.ERROR
    ∧ cacheStep (some t) CacheState.corrupt = (CmpResult.ERROR, CacheState.corrupt) := by
  refine ⟨rfl, rfl, ?_, ?_, rfl, rfl⟩
  · intro h
    have hcmp : compare_with_cache (some t) (CacheState.stored u d)
        = CmpResult.MATCH := by
      simp [compare_with_cache, h]
    refine ⟨hcmp, ?_⟩
    show (if compare_with_cache (some t) (CacheState.stored u d) = CmpResult.NEW
        then (CmpResult.NEW, CacheState.stored t (savedWidths t))
        else (compare_with_cache (some t) (CacheState.stored u d),
          CacheState.stored u d))
      = (CmpResult.MATCH, CacheState.stored u d)
    rw [hcmp]
    simp
  · intro h
    have hcmp : compare_with_cache (some t) (CacheState.stored u d)
        = CmpResult.MISMATCH := by
      simp [compare_with_cache, h]
    refine ⟨hcmp, ?_⟩
    show (if compare_with_cache (some t) (CacheState.stored u d) = CmpResult.NEW
        then (CmpResult.NEW, CacheState.stored t (savedWidths t))
        else (compare_with_cache (some t) (CacheState.stored u d),
          CacheState.stored u d))
      = (CmpResult.MISMATCH, CacheState.stored u d)
    rw [hcmp]
    simp

/-- C1 witness: concrete tables for each classification case. -/
theorem cache_classification_witness :
    compare_with_cache (some { columns := REQUIRED_COLS, rows := [] })
        CacheState.absent = CmpResult.NEW
    ∧ cacheStep (some { columns := REQUIRED_COLS, rows := [] }) CacheState.absent
        = (CmpResult.NEW, CacheState.stored { columns := REQUIRED_COLS, rows := [] }
            (savedWidths { columns := REQUIRED_COLS, rows := [] }))
    ∧ compare_with_cache (some { columns := REQUIRED_COLS, rows := [] })
        (CacheState.stored { columns := REQUIRED_COLS, rows := [] } [32])
        = CmpResult.MATCH
    ∧ cacheStep (some { columns := REQUIRED_COLS, rows := [] })
        (CacheState.stored { columns := REQUIRED_COLS, rows := [] } [32])
        = (CmpResult.MATCH,
           CacheState.stored { columns := REQUIRED_COLS, rows := [] } [32])
    ∧ compare_with_cache (some { columns := REQUIRED_COLS, rows := [] })
        (CacheState.stored
          { columns := REQUIRED_COLS,
            rows := [{ cat := .vstr "电", meter := .vnan, usage := 1, cost := 2 }] } [32])
        = CmpResult.MISMATCH
    ∧ cacheStep (some { columns := REQUIRED_COLS, rows := [] })
        (CacheState.stored
          { columns := REQUIRED_COLS,
            rows := [{ cat := .vstr "电", meter := .vnan, usage := 1, cost := 2 }] } [32])
        = (CmpResult.MISMATCH, CacheState.stored
          { columns := REQUIRED_COLS,
            rows := [{ cat := .vstr "电", meter := .vnan, usage := 1, cost := 2 }] } [32])
    ∧ compare_with_cache (some { columns := REQUIRED_COLS, rows := [] })
        CacheState.corrupt = CmpResult.ERROR
    ∧ cacheStep (some { columns := REQUIRED_COLS, rows := [] }) CacheState.corrupt
        = (CmpResult.ERROR, CacheState.corrupt) := by
  obtain ⟨hnew, hwrite, hmatch, hmis, herr, herrstep⟩ :=
    cache_classification { columns := REQUIRED_COLS, rows := [] }
      { columns := REQUIRED_COLS,
        rows := [{ cat := .vstr "电", meter := .vnan, usage := 1, cost := 2 }] } [32]
  exact ⟨hnew, hwrite,
    ((cache_classification { columns := REQUIRED_COLS, rows := [] }
      { columns := REQUIRED_COLS, rows := [] } [32]).2.2.1 rfl).1,
    ((cache_classification { columns := REQUIRED_COLS, rows := [] }
      { columns := REQUIRED_COLS, rows := [] } [32]).2.2.1 rfl).2,
    (hmis (by decide)).1, (hmis (by decide)).2, herr, herrstep⟩

/-! Helper lemmas about list membership, column names and the pivot. -/

theorem contains_eq_true_iff {l : List String} {a : String} :
    l.contains a = true ↔ a ∈ l := by
  simp [List.contains]

theorem costColName_inj : ∀ {a b : String}, costColName a = costColName b → a = b := by
  intro a b h
  have h2 := congrArg String.data h
  rw [show (costColName a).data = a.data ++ COST_SUFFIX.data from
    String.data_append a COST_SUFFIX] at h2
  rw [show (costColName b).data = b.data ++ COST_SUFFIX.data from
    String.data_append b COST_SUFFIX] at h2
  exact String.ext (List.append_cancel_right h2)

theorem costColName_ne_period (c : String) : costColName c ≠ "日期区间" := by
  intro h
  have h2 : (costColName c).data.length = ("日期区间" : String).data.length := by
    rw [h]
  rw [show ((costColName c).data.length : Nat)
      = c.data.length + COST_SUFFIX.data.length from by
    rw [show (costColName c).data = c.data ++ COST_SUFFIX.data from
      String.data_append c COST_SUFFIX, List.length_append]] at h2
  rw [show (COST_SUFFIX.data.length : Nat) = 6 from rfl] at h2
  rw [show (("日期区间" : String).data.length : Nat) = 4 from rfl] at h2
  omega

theorem endsWith_cost (c : String) : endsWithCostSuffix (costColName c) = true := by
  apply decide_eq_true
  rw [show (costColName c).data = c.data ++ COST_SUFFIX.data from
    String.data_append c COST_SUFFIX]
  exact List.suffix_append c.data COST_SUFFIX.data

theorem contains_map_inj {f : String → String}
    (hf : ∀ {a b : String}, f a = f b → a = b) :
    ∀ (l : List String) (c : String), (l.map f).contains (f c) = l.contains c := by
  intro l c
  induction l with
  | nil => rfl
  | cons x xs ih =>
    rw [List.map_cons, List.contains_cons, List.contains_cons, ih]
    by_cases hcx : c = x
    · subst hcx
      simp
    · have hfcx : f c ≠ f x := fun he => hcx (hf he)
      rw [beq_eq_false_iff_ne.mpr hfcx, beq_eq_false_iff_ne.mpr hcx]

theorem canon_filter_eq (pc : List String) :
    (target_order.map costColName).filter
        (fun c => ("日期区间" :: pc.map costColName).contains c)
      = (canonCatsOf pc).map costColName := by
  rw [canonCatsOf, List.filter_map]
  congr 1
  apply List.filter_congr
  intro c _
  show ("日期区间" :: pc.map costColName).contains (costColName c) = pc.contains c
  rw [List.contains_cons, contains_map_inj costColName_inj pc c,
    beq_eq_false_iff_ne.mpr (costColName_ne_period c), Bool.false_or]

theorem remaining_filter_eq (pc ts : List String) :
    ("日期区间" :: pc.map costColName).filter
        (fun c => !(("日期区间" :: ts.map costColName).contains c))
      = (pc.filter (fun c => !(ts.contains c))).map costColName := by
  rw [List.filter_cons]
  have hcond : (!(("日期区间" :: ts.map costColName).contains "日期区间")) = false := by
    rw [List.contains_cons]
    simp
  rw [hcond, if_neg (by simp), List.filter_map]
  congr 1
  apply List.filter_congr
  intro c _
  show (!(("日期区间" :: ts.map costColName).contains (costColName c)))
    = (!(ts.contains c))
  rw [List.contains_cons, contains_map_inj costColName_inj ts c,
    beq_eq_false_iff_ne.mpr (costColName_ne_period c), Bool.false_or]

theorem contains_filter_target (pc : List String) (c : String) (hc : c ∈ pc) :
    (canonCatsOf pc).contains c = target_order.contains c := by
  by_cases hct : c ∈ target_order
  · have h1 : c ∈ canonCatsOf pc :=
      List.mem_filter.mpr ⟨hct, contains_eq_true_iff.mpr hc⟩
    rw [contains_eq_true_iff.mpr h1, contains_eq_true_iff.mpr hct]
  · have h1 : c ∉ canonCatsOf pc := fun hmem =>
      hct (List.mem_filter.mp hmem).1
    rw [Bool.eq_false_iff.mpr (fun h => h1 (contains_eq_true_iff.mp h)),
      Bool.eq_false_iff.mpr (fun h => hct (contains_eq_true_iff.mp h))]

theorem orderedColumnsOf_cons (pc : List String) :
    orderedColumnsOf ("日期区间" :: pc.map costColName)
      = "日期区间" :: (aggCatsOf pc).map costColName := by
  simp only [orderedColumnsOf]
  rw [canon_filter_eq]
  rw [remaining_filter_eq pc (canonCatsOf pc)]
  have hrem : pc.filter (fun c => !((canonCatsOf pc).contains c)) = remCatsOf pc := by
    rw [remCatsOf]
    apply List.filter_congr
    intro c hc
    rw [contains_filter_target pc c hc]
  rw [hrem, aggCatsOf, List.map_append]
  rfl

theorem lookupCell_map_key {kf : String → String}
    (hkf : ∀ {a b : String}, kf a = kf b → a = b) (g : String → Rat) :
    ∀ (ks : List String) (k : String), k ∈ ks →
      lookupCell (ks.map (fun k2 => (kf k2, g k2))) (kf k) = g k := by
  intro ks
  induction ks with
  | nil => intro k hk; cases hk
  | cons x xs ih =>
    intro k hk
    rw [List.map_cons, lookupCell, List.find?_cons]
    by_cases hxk : k = x
    · subst hxk
      rw [show ((kf k, g k).1 == kf k) = true from beq_self_eq_true (kf k)]
    · have hne : kf x ≠ kf k := fun he => hxk (hkf he).symm
      rw [show ((kf x, g x).1 == kf k) = false from beq_eq_false_iff_ne.mpr hne]
      have hmem : k ∈ xs := by
        rcases List.mem_cons.mp hk with h | h
        · exact absurd h hxk
        · exact h
      have := ih k hmem
      rw [lookupCell] at this
      exact this

theorem lookupCell_map_pair (g : String → Rat) (ks : List String) (k : String)
    (hk : k ∈ ks) : lookupCell (ks.map (fun k2 => (k2, g k2))) k = g k :=
  lookupCell_map_key (fun h => h) g ks k hk

theorem lookupCell_map_cost (g : String → Rat) (ks : List String) (k : String)
    (hk : k ∈ ks) :
    lookupCell (ks.map (fun k2 => (costColName k2, g k2))) (costColName k) = g k :=
  lookupCell_map_key costColName_inj g ks k hk

theorem filter_endsWith_cols (pc : List String) :
    ("日期区间" :: (aggCatsOf pc).map costColName).filter endsWithCostSuffix
      = (aggCatsOf pc).map costColName := by
  rw [List.filter_cons]
  rw [show endsWithCostSuffix "日期区间" = false from rfl, if_neg (by simp)]
  rw [List.filter_eq_self.mpr]
  intro a ha
  obtain ⟨c, _, hc⟩ := List.mem_map.mp ha
  rw [← hc]
  exact endsWith_cost c

theorem mem_aggCatsOf {pc : List String} {c : String} (hc : c ∈ aggCatsOf pc) :
    c ∈ pc := by
  rcases List.mem_append.mp hc with h | h
  · exact contains_eq_true_iff.mp (List.mem_filter.mp h).2
  · exact (List.mem_filter.mp h).1

theorem mem_aggCatsOf_of_mem {pc : List String} {c : String} (hc : c ∈ pc) :
    c ∈ aggCatsOf pc := by
  by_cases hct : c ∈ target_order
  · exact List.mem_append.mpr (Or.inl
      (List.mem_filter.mpr ⟨hct, contains_eq_true_iff.mpr hc⟩))
  · refine List.mem_append.mpr (Or.inr (List.mem_filter.mpr ⟨hc, ?_⟩))
    simp only [Bool.not_eq_true']
    exact Bool.eq_false_iff.mpr (fun h => hct (contains_eq_true_iff.mp h))

/-- Shape of the final aggregate columns, stated through the category
order aggCatsOf. -/
theorem aggColumns_eq (L : List SummaryRow) :
    (aggTable L).columns =
      "日期区间" :: ((aggCatsOf (pivotCats L)).map costColName ++ ["总费用(元)"]) := by
  show (orderedColumnsOf ("日期区间" :: (pivotCats L).map costColName))
      ++ ["总费用(元)"]
    = "日期区间" :: ((aggCatsOf (pivotCats L)).map costColName ++ ["总费用(元)"])
  rw [orderedColumnsOf_cons, List.cons_append]

/-- Shape of the final aggregate rows: one row per sorted period, cells
keyed by the reordered cost columns holding the pivot cell sums, and the
total summing exactly those cells. -/
theorem aggRows_eq (L : List SummaryRow) :
    (aggTable L).rows = (pivotPeriods L).map (fun p =>
      (p, (aggCatsOf (pivotCats L)).map (fun c => (costColName c, cellSum L p c)),
        ((aggCatsOf (pivotCats L)).map (fun c => cellSum L p c)).sum)) := by
  have hmem : ∀ c ∈ aggCatsOf (pivotCats L), c ∈ pivotCats L :=
    fun c hc => mem_aggCatsOf hc
  show ((pivotWide L).rows.map (fun pr => (pr.1,
      ((orderedColumnsOf (pivotWide L).columns).drop 1).map
        (fun col => (col, lookupCell pr.2 col))))).map (fun pr => (pr.1, pr.2,
      (((orderedColumnsOf (pivotWide L).columns).filter endsWithCostSuffix).map
        (fun col => lookupCell pr.2 col)).sum)) = _
  rw [show (pivotWide L).columns = "日期区间" :: (pivotCats L).map costColName
    from rfl]
  rw [orderedColumnsOf_cons, filter_endsWith_cols]
  rw [show ("日期区间" :: (aggCatsOf (pivotCats L)).map costColName).drop 1
    = (aggCatsOf (pivotCats L)).map costColName from rfl]
  rw [show (pivotWide L).rows = (pivotPeriods L).map (fun p =>
    (p, (pivotCats L).map (fun c => (costColName c, cellSum L p c)))) from rfl]
  rw [List.map_map, List.map_map]
  apply List.map_congr_left
  intro p _
  simp only [Function.comp]
  have hcells : ((aggCatsOf (pivotCats L)).map costColName).map
      (fun col => (col, lookupCell
        ((pivotCats L).map (fun c => (costColName c, cellSum L p c))) col))
      = (aggCatsOf (pivotCats L)).map
        (fun c => (costColName c, cellSum L p c)) := by
    rw [List.map_map]
    apply List.map_congr_left
    intro c hc
    simp only [Function.comp]
    rw [lookupCell_map_cost (fun c2 => cellSum L p c2) (pivotCats L) c (hmem c hc)]
  rw [hcells]
  have htot : ((aggCatsOf (pivotCats L)).map costColName).map
      (fun col => lookupCell ((aggCatsOf (pivotCats L)).map
        (fun c => (costColName c, cellSum L p c))) col)
      = (aggCatsOf (pivotCats L)).map (fun c => cellSum L p c) := by
    rw [List.map_map]
    apply List.map_congr_left
    intro c hc
    simp only [Function.comp]
    rw [lookupCell_map_cost (fun c2 => cellSum L p c2) (aggCatsOf (pivotCats L)) c hc]
  rw [htot]

theorem listLe_cons_lt {a b : Char} {as bs : List Char} (h : a < b) :
    listLe (a :: as) (b :: bs) = true := by
  simp [listLe, if_pos h]

theorem listLe_cons_gt {a b : Char} {as bs : List Char} (h : b < a) :
    listLe (a :: as) (b :: bs) = false := by
  simp [listLe, if_neg (lt_asymm h), if_pos h]

theorem listLe_cons_self {a : Char} {as bs : List Char} :
    listLe (a :: as) (a :: bs) = listLe as bs := by
  simp [listLe, lt_irrefl]

theorem listLe_nil_false {b : Char} {bs : List Char} :
    listLe (b :: bs) [] = false := rfl

theorem listLe_total : ∀ x y : List Char, listLe x y = true ∨ listLe y x = true := by
  intro x
  induction x with
  | nil => intro y; left; rfl
  | cons a as ih =>
    intro y
    cases y with
    | nil => right; rfl
    | cons b bs =>
      rcases lt_trichotomy a b with h | h | h
      · left
        exact listLe_cons_lt h
      · subst h
        rcases ih bs with h2 | h2
        · left
          rw [listLe_cons_self]
          exact h2
        · right
          rw [listLe_cons_self]
          exact h2
      · right
        exact listLe_cons_lt h

theorem listLe_trans : ∀ x y z : List Char,
    listLe x y = true → listLe y z = true → listLe x z = true := by
  intro x
  induction x with
  | nil => intro y z _ _; rfl
  | cons a as ih =>
    intro y z h1 h2
    cases y with
    | nil => rw [listLe_nil_false] at h1; cases h1
    | cons b bs =>
      cases z with
      | nil => rw [listLe_nil_false] at h2; cases h2
      | cons c cs =>
        rcases lt_trichotomy a b with hab | hab | hab
        · rcases lt_trichotomy b c with hbc | hbc | hbc
          · exact listLe_cons_lt (lt_trans hab hbc)
          · subst hbc
            exact listLe_cons_lt hab
          · rw [listLe_cons_gt hbc] at h2
            cases h2
        · subst hab
          rcases lt_trichotomy a c with hac | hac | hac
          · exact listLe_cons_lt hac
          · subst hac
            rw [listLe_cons_self] at h1 h2 ⊢
            exact ih bs cs h1 h2
          · rw [listLe_cons_gt hac] at h2
            cases h2
        · rw [listLe_cons_gt hab] at h1
          cases h1

theorem listLe_antisymm : ∀ x y : List Char,
    listLe x y = true → listLe y x = true → x = y := by
  intro x
  induction x with
  | nil =>
    intro y _ h2
    cases y with
    | nil => rfl
    | cons b bs => rw [listLe_nil_false] at h2; cases h2
  | cons a as ih =>
    intro y h1 h2
    cases y with
    | nil => rw [listLe_nil_false] at h1; cases h1
    | cons b bs =>
      rcases lt_trichotomy a b with hab | hab | hab
      · rw [listLe_cons_gt hab] at h2
        cases h2
      · subst hab
        rw [listLe_cons_self] at h1 h2
        rw [ih bs h1 h2]
      · rw [listLe_cons_gt hab] at h1
        cases h1

instance : IsTotal String strLe :=
  ⟨fun a b => listLe_total a.data b.data⟩

instance : IsTrans String strLe :=
  ⟨fun a b c => listLe_trans a.data b.data c.data⟩

instance : IsAntisymm String strLe :=
  ⟨fun a b h1 h2 => String.ext (listLe_antisymm a.data b.data h1 h2)⟩

theorem mem_sortedDedup {l : List String} {a : String} :
    a ∈ sortedDedup l ↔ a ∈ l := by
  rw [sortedDedup, (List.perm_insertionSort _ _).mem_iff]
  exact List.mem_dedup

theorem sortedDedup_perm {l1 l2 : List String} (h : l1.Perm l2) :
    sortedDedup l1 = sortedDedup l2 :=
  List.eq_of_perm_of_sorted
    (((List.perm_insertionSort _ _).trans h.dedup).trans
      (List.perm_insertionSort _ _).symm)
    (List.sorted_insertionSort _ _) (List.sorted_insertionSort _ _)

/-- Sample summary rows used by concrete witnesses: two periods, the
categories 电 and 自来水, and no 燃气 row at all. -/
def sampleSummary : List SummaryRow :=
  [{ cat := "电", usage := 10, cost := 100, period := "2024-01", file := "a.xlsx" },
   { cat := "自来水", usage := 4, cost := 20, period := "2024-01", file := "a.xlsx" },
   { cat := "电", usage := 15, cost := 150, period := "2024-02", file := "b.xlsx" }]

/-- C4: the cross-sheet aggregation is order-independent: two
enumerations of the same multiset of summary rows produce the identical
aggregate table. -/
theorem aggregation_order_independent (L1 L2 : List SummaryRow)
    (h : L1.Perm L2) : aggTable L1 = aggTable L2 := by
  have hper : pivotPeriods L1 = pivotPeriods L2 :=
    sortedDedup_perm (h.map SummaryRow.period)
  have hcat : pivotCats L1 = pivotCats L2 :=
    sortedDedup_perm (h.map SummaryRow.cat)
  have hsum : cellSum L1 = cellSum L2 := by
    funext p c
    exact ((h.filter (fun r => r.period == p && r.cat == c)).map
      SummaryRow.cost).sum_eq
  simp only [aggTable, addTotal, reorderColumns, pivotWide]
  rw [hper, hcat, hsum]

/-- C4 witness: the sample rows in two enumeration orders. -/
theorem aggregation_order_independent_witness :
    aggTable sampleSummary = aggTable sampleSummary.reverse :=
  aggregation_order_independent sampleSummary sampleSummary.reverse (by decide)

/-- C6: the aggregate columns are the period-label column first, then
one cost column per canonical category present (in the fixed canonical
order), then the cost columns of the categories outside the canonical
set (in encountered pivot order), then the grand-total column last. -/
theorem aggregate_column_order (L : List SummaryRow) :
    (aggTable L).columns =
      "日期区间" :: ((canonCatsOf (pivotCats L)).map costColName
        ++ ((remCatsOf (pivotCats L)).map costColName
        ++ ["总费用(元)"])) := by
  rw [aggColumns_eq, aggCatsOf, List.map_append, List.append_assoc]

/-- C7: in every aggregate row the grand total equals the sum of the
per-category cost cells of that row. -/
theorem grand_total_rowwise (L : List SummaryRow)
    (row : String × List (String × Rat) × Rat)
    (h : row ∈ (aggTable L).rows) :
    row.2.2 = (row.2.1.map Prod.snd).sum := by
  rw [aggRows_eq] at h
  obtain ⟨p, _, hp⟩ := List.mem_map.mp h
  rw [← hp, List.map_map]
  rfl

/-- C7 witness at the first period of the sample rows. -/
theorem grand_total_rowwise_witness :
    (("2024-01",
        (aggCatsOf (pivotCats sampleSummary)).map
          (fun c => (costColName c, cellSum sampleSummary "2024-01" c)),
        ((aggCatsOf (pivotCats sampleSummary)).map
          (fun c => cellSum sampleSummary "2024-01" c)).sum) :
      String × List (String × Rat) × Rat).2.2
    = ((("2024-01",
        (aggCatsOf (pivotCats sampleSummary)).map
          (fun c => (costColName c, cellSum sampleSummary "2024-01" c)),
        ((aggCatsOf (pivotCats sampleSummary)).map
          (fun c => cellSum sampleSummary "2024-01" c)).sum) :
      String × List (String × Rat) × Rat).2.1.map Prod.snd).sum :=
  grand_total_rowwise sampleSummary _ (by
    rw [aggRows_eq]
    exact List.mem_map.mpr ⟨"2024-01", by decide, rfl⟩)

/-- C5 counterexample: 燃气 is a recognized category, the sample rows
give it zero contribution across all periods (no summary row mentions
it), and its cost column is absent from the aggregate table: the column
is dropped, not kept as an all-zero column. -/
theorem zero_fill_column_dropped_cex :
    "燃气" ∈ TARGET_TYPES
    ∧ (∀ r ∈ sampleSummary, r.cat ≠ "燃气")
    ∧ costColName "燃气" ∉ (aggTable sampleSummary).columns := by
  refine ⟨by decide, by decide, by decide⟩

/-- C5 amended: every period row carries a cost cell for every category
that occurs in at least one summary row, a (period, category) pair with
no contributing rows is filled with the zero sum, and a category keeps
its column as long as it occurs in some summary row (even with only
zero costs); a recognized category occurring in no summary row receives
no column. -/
theorem zero_fill_present_categories (L : List SummaryRow) (p c : String)
    (hc : c ∈ L.map SummaryRow.cat) (hp : p ∈ L.map SummaryRow.period) :
    costColName c ∈ (aggTable L).columns
    ∧ (∃ cells tot, ((p, cells, tot) ∈ (aggTable L).rows
        ∧ (costColName c, cellSum L p c) ∈ cells))
    ∧ (L.filter (fun r => r.period == p && r.cat == c) = [] →
        cellSum L p c = 0) := by
  have hcpc : c ∈ pivotCats L := mem_sortedDedup.mpr hc
  have hppp : p ∈ pivotPeriods L := mem_sortedDedup.mpr hp
  have hcagg : c ∈ aggCatsOf (pivotCats L) := mem_aggCatsOf_of_mem hcpc
  refine ⟨?_,
    ⟨(aggCatsOf (pivotCats L)).map (fun c2 => (costColName c2, cellSum L p c2)),
     ((aggCatsOf (pivotCats L)).map (fun c2 => cellSum L p c2)).sum, ?_, ?_⟩, ?_⟩
  · rw [aggColumns_eq]
    exact List.mem_cons_of_mem _ (List.mem_append.mpr (Or.inl
      (List.mem_map.mpr ⟨c, hcagg, rfl⟩)))
  · rw [aggRows_eq]
    exact List.mem_map.mpr ⟨p, hppp, rfl⟩
  · exact List.mem_map.mpr ⟨c, hcagg, rfl⟩
  · intro hfil
    rw [cellSum, hfil]
    rfl

/-- C5 amended witness: 自来水 occurs only in period 2024-01, yet period
2024-02 still carries a cell for it, holding the zero sum. -/
theorem zero_fill_present_categories_witness :
    costColName "自来水" ∈ (aggTable sampleSummary).columns
    ∧ (∃ cells tot, (("2024-02", cells, tot) ∈ (aggTable sampleSummary).rows
        ∧ (costColName "自来水", cellSum sampleSummary "2024-02" "自来水") ∈ cells))
    ∧ (sampleSummary.filter
        (fun r => r.period == "2024-02" && r.cat == "自来水") = [] →
        cellSum sampleSummary "2024-02" "自来水" = 0) :=
  zero_fill_present_categories sampleSummary "2024-02" "自来水"
    (by decide) (by decide)

/-- C8: a sheet missing a required column is skipped: loading yields no
processed table, the sheet produces no summary and contributes zero rows
to the collected summary list, while the remaining sheets are still
processed. -/
theorem schema_violation_skips_sheet (t : Table) (s f : String)
    (rest : List (Table × String × String))
    (h : REQUIRED_COLS.all (fun c => t.columns.contains c) = false) :
    load_and_process t = none
    ∧ sheetSummary t s f = none
    ∧ collectSummaries ((t, s, f) :: rest) = collectSummaries rest := by
  have h1 : load_and_process t = none := by
    unfold load_and_process
    have hneg : ¬(REQUIRED_COLS.all (fun c => t.columns.contains c) = true) := by
      rw [h]
      exact Bool.false_ne_true
    rw [if_neg hneg]
  have h2 : sheetSummary t s f = none := by
    rw [sheetSummary, h1]
    rfl
  refine ⟨h1, h2, ?_⟩
  rw [collectSummaries, h2]
  simp

/-- C8 witness: a sheet without the cost column beside a healthy sheet. -/
theorem schema_violation_skips_sheet_witness :
    load_and_process { columns := ["能源类型", "实际消耗"], rows := [] } = none
    ∧ sheetSummary { columns := ["能源类型", "实际消耗"], rows := [] }
        "2024-01" "a.xlsx" = none
    ∧ collectSummaries
        [({ columns := ["能源类型", "实际消耗"], rows := [] }, "2024-01", "a.xlsx"),
         ({ columns := REQUIRED_COLS,
            rows := [{ cat := .vstr "电", meter := .vnan, usage := 1, cost := 2 }] },
          "2024-02", "b.xlsx")]
      = collectSummaries
        [({ columns := REQUIRED_COLS,
            rows := [{ cat := .vstr "电", meter := .vnan, usage := 1, cost := 2 }] },
          "2024-02", "b.xlsx")] :=
  schema_violation_skips_sheet _ "2024-01" "a.xlsx" _ (by decide)

theorem collectSummaries_mem {r : SummaryRow} :
    ∀ sheets : List (Table × String × String), r ∈ collectSummaries sheets →
      ∃ t u s f, load_and_process t = some u ∧ r ∈ generate_summary u s f := by
  intro sheets
  induction sheets with
  | nil => intro h; cases h
  | cons x rest ih =>
    obtain ⟨t, s, f⟩ := x
    intro h
    rw [collectSummaries] at h
    rcases List.mem_append.mp h with h1 | h1
    · cases hss : sheetSummary t s f with
      | none => rw [hss] at h1; cases h1
      | some l =>
        rw [hss] at h1
        obtain ⟨u, hu, hgen⟩ := Option.map_eq_some'.mp hss
        exact ⟨t, u, s, f, hu, hgen ▸ h1⟩
    · exact ih h1

theorem generate_summary_cat_target {u : Table} {s f : String} {r : SummaryRow}
    (h : r ∈ generate_summary u s f) : r.cat ∈ TARGET_TYPES := by
  simp only [generate_summary] at h
  obtain ⟨c, hc, hcr⟩ := List.mem_map.mp h
  rw [← hcr]
  show c ∈ TARGET_TYPES
  have hc2 := mem_sortedDedup.mp hc
  obtain ⟨row, hrow, hrowc⟩ := List.mem_map.mp hc2
  have hf := (List.mem_filter.mp hrow).2
  rw [← hrowc]
  exact contains_eq_true_iff.mp hf

/-- C10: in a run, every aggregate column other than the period column
and the grand-total column is the cost column of one of the six
recognized categories: the per-sheet summary filters to the recognized
set before grouping, so no unrecognized category ever reaches the
pivot. -/
theorem only_recognized_cost_columns (sheets : List (Table × String × String))
    (col : String)
    (h1 : col ∈ (aggTable (collectSummaries sheets)).columns)
    (h2 : col ≠ "日期区间") (h3 : col ≠ "总费用(元)") :
    ∃ c, c ∈ TARGET_TYPES ∧ col = costColName c := by
  rw [aggColumns_eq] at h1
  rcases List.mem_cons.mp h1 with he | h4
  · exact absurd he h2
  rcases List.mem_append.mp h4 with h5 | h6
  · obtain ⟨c, hc, hcol⟩ := List.mem_map.mp h5
    refine ⟨c, ?_, hcol.symm⟩
    have hcp := mem_aggCatsOf hc
    have hcl : c ∈ (collectSummaries sheets).map SummaryRow.cat :=
      mem_sortedDedup.mp hcp
    obtain ⟨r, hr, hrc⟩ := List.mem_map.mp hcl
    obtain ⟨t, u, s2, f2, _, hgen⟩ := collectSummaries_mem _ hr
    rw [← hrc]
    exact generate_summary_cat_target hgen
  · exact absurd (List.mem_singleton.mp h6) h3

/-- C10 witness at a one-sheet run. -/
theorem only_recognized_cost_columns_witness :
    ∃ c, c ∈ TARGET_TYPES ∧ costColName "电" = costColName c :=
  only_recognized_cost_columns
    [({ columns := REQUIRED_COLS,
        rows := [{ cat := .vstr "电", meter := .vnan, usage := 1, cost := 2 }] },
      "2024-01", "a.xlsx")]
    (costColName "电") (by decide) (by decide) (by decide)

end EnergyCNCC
